import Mathlib

/-!
Verification of the spexma repository: a shallow embedding in Lean 4 of

* the CSV partitioning engine (`ProcessCSV`, `writeCSV`, `sanitizeFilename`
  in the `split` package), and
* the publish pipeline (`TransformCSV`, `transformRecord`, `parseTimestamp`,
  `applyTimeOffsets` in the `publish` package, and the batch/retry loop of
  `processFile` in the publisher),

together with theorems settling the specification's claims about them.

Modelling conventions:
* Machine integers are `Nat`/`Int`; none of the modelled code paths overflow.
* A CSV input is its already-parsed header plus row list
  (`List String` / `List (List String)`).  Go's `encoding/csv` reader, after
  reading the header, returns `ErrFieldCount` for any subsequent record whose
  field count differs from the header's; both passes of `ProcessCSV` skip such
  records with a warning, while `TransformCSV` aborts on them.  This is
  embedded as an explicit row-length check at each use site.
* The concurrent router/writer fan-out of `ProcessCSV` is embedded by its
  sequentially observable outcome: each per-key channel is a FIFO with a
  single producer (the router) and a single consumer (its writer), so the
  rows written for a key are exactly the routed rows for that key in input
  order.
* Go maps used as string-keyed dictionaries are embedded as association
  lists with overwrite-on-insert.
-/

namespace Split

/-!  ## The split package: `ProcessCSV` / `writeCSV` / `sanitizeFilename` -/

/-- Go `encoding/csv` field-count check: after the header fixes
`FieldsPerRecord`, a record of a different length is returned with
`ErrFieldCount`; `ProcessCSV` treats that as a read error and skips the
record (in both passes). -/
def rowOk (header row : List String) : Bool :=
  row.length == header.length

/-- A record survives a pass of `ProcessCSV` iff it parses without error and
has more fields than the sourcetype column index
(`len(record) <= sourcetypeIdx` records are skipped). -/
def keepRow (header : List String) (sIdx : Nat) (row : List String) : Bool :=
  rowOk header row && decide (sIdx < row.length)

/-- Partition key of a record: the sourcetype column's value, with empty
mapped to the sentinel `"unknown"`. -/
def keyOf (sIdx : Nat) (row : List String) : String :=
  let st := row.getD sIdx ""
  if st == "" then "unknown" else st

/-- The rows `ProcessCSV` actually processes (identical in pass 1 and
pass 2, since the file is re-read from the start). -/
def keptRows (header : List String) (sIdx : Nat) (rows : List (List String)) :
    List (List String) :=
  rows.filter (fun r => keepRow header sIdx r)

/-- Pass 1 column-usage analysis (`columnUsage`): column `i` is used for
partition `st` iff some kept row with that key has a non-empty field at
`i`. -/
def usedCol (header : List String) (sIdx : Nat) (rows : List (List String))
    (st : String) (i : Nat) : Bool :=
  rows.any (fun r =>
    keepRow header sIdx r && keyOf sIdx r == st && !(r.getD i "" == ""))

/-- `sourcetypeHeaderIdx`: the recorded column indices of a partition's
schema — header positions whose column was observed non-empty, in original
header order. -/
def schemaIdx (header : List String) (sIdx : Nat) (rows : List (List String))
    (st : String) : List Nat :=
  (List.range header.length).filter (fun i => usedCol header sIdx rows st i)

/-- `sourcetypeHeaders`: the partition's header line (column names at the
schema's indices). -/
def schemaNames (header : List String) (sIdx : Nat) (rows : List (List String))
    (st : String) : List String :=
  (schemaIdx header sIdx rows st).map (fun i => header.getD i "")

/-- Pass 2 routing outcome for one key: the kept rows carrying that key, in
input order (each per-key channel is a FIFO with one producer and one
consumer, and the router never drops a row). -/
def rowsFor (header : List String) (sIdx : Nat) (rows : List (List String))
    (st : String) : List (List String) :=
  rows.filter (fun r => keepRow header sIdx r && keyOf sIdx r == st)

/-- `writeCSV` record projection: keep only the schema's columns,
substituting `""` where the row is shorter than an index. -/
def project (idxs : List Nat) (row : List String) : List String :=
  idxs.map (fun i => row.getD i "")

/-- The data rows written to one partition's output file. -/
def outputRows (header : List String) (sIdx : Nat) (rows : List (List String))
    (st : String) : List (List String) :=
  (rowsFor header sIdx rows st).map (project (schemaIdx header sIdx rows st))

/-- The distinct partition keys encountered in pass 2 (one output file and
one writer per key). -/
def partitionKeys (header : List String) (sIdx : Nat)
    (rows : List (List String)) : List String :=
  ((keptRows header sIdx rows).map (keyOf sIdx)).dedup

/-- `ProcessCSV` locates the sourcetype column as the first header position
with the given name. -/
def findColIdx (header : List String) (col : String) : Option Nat :=
  header.findIdx? (fun c => c == col)

/-!  ### `sanitizeFilename` -/

/-- Characters the regex `[<>:"/\\|?*\x00-\x1F]` declares illegal in
filenames. -/
def illegalChar (c : Char) : Bool :=
  c == '<' || c == '>' || c == ':' || c == '"' || c == '/' || c == '\\' ||
    c == '|' || c == '?' || c == '*' || decide (c.toNat ≤ 0x1F)

/-- First sanitization step: every illegal character becomes `'_'`. -/
def replCh (c : Char) : Char :=
  if illegalChar c then '_' else c

/-- Second step, the regex `_+` → `_`: collapse each run of underscores to a
single one.  The flag records whether the previous emitted character was an
underscore of a still-open run. -/
def collapseAux : Bool → List Char → List Char
  | _, [] => []
  | prevU, c :: rest =>
    if c == '_' then
      if prevU then collapseAux true rest
      else '_' :: collapseAux true rest
    else c :: collapseAux false rest

def collapse (l : List Char) : List Char :=
  collapseAux false l

/-- The cutset of `strings.Trim(sanitized, " ._")`. -/
def trimCh (c : Char) : Bool :=
  c == ' ' || c == '.' || c == '_'

def trimLeft (l : List Char) : List Char :=
  l.dropWhile trimCh

def trimRight (l : List Char) : List Char :=
  (l.reverse.dropWhile trimCh).reverse

/-- `sanitizeFilename` on character lists: replace illegal characters,
collapse underscore runs, trim `" ._"` from both ends, and fall back to
`"unknown"` when the result is empty. -/
def sanitizeList (l : List Char) : List Char :=
  let t := trimRight (trimLeft (collapse (l.map replCh)))
  if t = [] then "unknown".toList else t

/-- Sanitize a sourcetype string to create a valid filename. -/
def sanitizeFilename (s : String) : String :=
  ⟨sanitizeList s.toList⟩

/-- Output file name for a partition key. -/
def outputFileName (st : String) : String :=
  sanitizeFilename st ++ ".csv"

/-!  ### Reading an output row back through its recorded indices

The reconstruction named by the spec: an output row `q`, paired with its
partition's recorded column indices `idxs`, is read back as a full-width row
(`n` = header width) holding `q`'s cells at the recorded positions and `""`
elsewhere. -/

def readCell : List Nat → List String → Nat → String
  | [], _, _ => ""
  | j :: js, q, i => if j = i then q.headD "" else readCell js q.tail i

def readBack (idxs : List Nat) (q : List String) (n : Nat) : List String :=
  (List.range n).map (readCell idxs q)

end Split

namespace Split

/-!  ### Row conservation through the partition pipeline -/

theorem readCell_project (idxs : List Nat) (r : List String) (i : Nat) :
    readCell idxs (project idxs r) i = if i ∈ idxs then r.getD i "" else "" := by
  induction idxs with
  | nil => simp [readCell]
  | cons j js ih =>
    by_cases h : j = i
    · subst h
      simp [readCell, project]
    · have hmem : (i ∈ j :: js) ↔ i ∈ js := by
        constructor
        · intro hc
          rcases List.mem_cons.mp hc with he | hm
          · exact absurd he.symm h
          · exact hm
        · intro hm
          exact List.mem_cons.mpr (Or.inr hm)
      simp only [project, List.map_cons, readCell, if_neg h, List.tail_cons]
      rw [show (List.map (fun i => r.getD i "") js) = project js r from rfl, ih]
      simp [hmem]

theorem length_of_keepRow {header row : List String} {sIdx : Nat}
    (h : keepRow header sIdx row = true) : row.length = header.length := by
  have := (Bool.and_eq_true _ _).mp h
  simpa [rowOk] using this.1

/-- If a kept row of the input has a non-empty field at `i < header.length`,
then `i` is recorded in its partition's schema. -/
theorem mem_schemaIdx_of_nonempty {header : List String} {sIdx : Nat}
    {rows : List (List String)} {r : List String} {i : Nat}
    (hr : r ∈ rows) (hk : keepRow header sIdx r = true)
    (hi : i < header.length) (hne : ¬ r.getD i "" = "") :
    i ∈ schemaIdx header sIdx rows (keyOf sIdx r) := by
  refine List.mem_filter.mpr ⟨List.mem_range.mpr hi, ?_⟩
  refine List.any_eq_true.mpr ⟨r, hr, ?_⟩
  have hne' : ¬ r[i]?.getD "" = "" := by
    simpa [List.getD] using hne
  simp [hk, hne']

/-- A projected output row, read back through its partition's recorded
indices at full header width, is the original row. -/
theorem readBack_project {header : List String} {sIdx : Nat}
    {rows : List (List String)} {r : List String}
    (hr : r ∈ rows) (hk : keepRow header sIdx r = true) :
    readBack (schemaIdx header sIdx rows (keyOf sIdx r))
      (project (schemaIdx header sIdx rows (keyOf sIdx r)) r)
      header.length = r := by
  have hlen : r.length = header.length := length_of_keepRow hk
  apply List.ext_getElem
  · simp [readBack, hlen]
  · intro n h1 h2
    have hn : n < header.length := by simpa [readBack] using h1
    have hgr : (readBack (schemaIdx header sIdx rows (keyOf sIdx r))
        (project (schemaIdx header sIdx rows (keyOf sIdx r)) r)
        header.length)[n] =
        readCell (schemaIdx header sIdx rows (keyOf sIdx r))
          (project (schemaIdx header sIdx rows (keyOf sIdx r)) r) n := by
      simp [readBack]
    rw [hgr, readCell_project]
    by_cases hmem : n ∈ schemaIdx header sIdx rows (keyOf sIdx r)
    · rw [if_pos hmem, List.getD_eq_getElem r "" h2]
    · rw [if_neg hmem]
      by_cases hz : r.getD n "" = ""
      · rw [List.getD_eq_getElem r "" h2] at hz
        exact hz.symm
      · exact absurd (mem_schemaIdx_of_nonempty hr hk hn hz) hmem

/-- The data rows of one partition's output file, each read back through the
recorded indices, are exactly the rows routed to that partition. -/
theorem readBack_outputRows (header : List String) (sIdx : Nat)
    (rows : List (List String)) (st : String) :
    (outputRows header sIdx rows st).map
      (fun q => readBack (schemaIdx header sIdx rows st) q header.length) =
    rowsFor header sIdx rows st := by
  unfold outputRows
  rw [List.map_map]
  have : ∀ r ∈ rowsFor header sIdx rows st,
      readBack (schemaIdx header sIdx rows st)
        (project (schemaIdx header sIdx rows st) r) header.length = r := by
    intro r hrf
    have hmem := List.mem_filter.mp hrf
    have hk : keepRow header sIdx r = true := ((Bool.and_eq_true _ _).mp hmem.2).1
    have hst : keyOf sIdx r = st := by
      have := ((Bool.and_eq_true _ _).mp hmem.2).2
      simpa using this
    subst hst
    exact readBack_project hmem.1 hk
  calc (rowsFor header sIdx rows st).map
        (fun r => readBack (schemaIdx header sIdx rows st)
          (project (schemaIdx header sIdx rows st) r) header.length)
      = (rowsFor header sIdx rows st).map id := List.map_congr_left this
    _ = rowsFor header sIdx rows st := List.map_id _

theorem coe_flatten_eq_sum (L : List (List (List String))) :
    ((L.flatten : List (List String)) : Multiset (List String)) =
      (L.map Multiset.ofList).sum := by
  induction L with
  | nil => simp
  | cons x L ih =>
    simp only [List.flatten_cons, List.map_cons, List.sum_cons, ← ih,
      ← Multiset.coe_add]

/-- Summing the fibers of a key function over a duplicate-free list of keys
that covers a multiset reassembles the multiset. -/
theorem sum_filter_partition (K : List String) (hK : K.Nodup)
    (s : Multiset (List String)) (f : List String → String)
    (hs : ∀ r ∈ s, f r ∈ K) :
    (K.map (fun st => s.filter (fun r => f r = st))).sum = s := by
  induction K generalizing s with
  | nil =>
    have : s = 0 := Multiset.eq_zero_of_forall_not_mem (fun r hr =>
      (List.not_mem_nil (f r)) (hs r hr))
    simp [this]
  | cons s0 ss ih =>
    have hnd := List.nodup_cons.mp hK
    simp only [List.map_cons, List.sum_cons]
    have hrest : ∀ st ∈ ss, s.filter (fun r => f r = st) =
        (s.filter (fun r => ¬ f r = s0)).filter (fun r => f r = st) := by
      intro st hst
      rw [Multiset.filter_filter]
      refine (Multiset.filter_congr ?_).symm
      intro r _
      constructor
      · intro h
        exact h.1
      · intro h
        refine ⟨h, ?_⟩
        intro he
        rw [h] at he
        exact hnd.1 (he ▸ hst)
    have hmap : ss.map (fun st => s.filter (fun r => f r = st)) =
        ss.map (fun st => (s.filter (fun r => ¬ f r = s0)).filter
          (fun r => f r = st)) :=
      List.map_congr_left hrest
    rw [hmap, ih hnd.2 (s.filter (fun r => ¬ f r = s0)) (by
      intro r hr
      have hr' := Multiset.mem_filter.mp hr
      rcases List.mem_cons.mp (hs r hr'.1) with he | hm
      · exact absurd he hr'.2
      · exact hm)]
    exact Multiset.filter_add_not _ s

/-- Pass-2 routing, restricted to one key, filters the kept rows by that
key. -/
theorem rowsFor_eq_filter_kept (header : List String) (sIdx : Nat)
    (rows : List (List String)) (st : String) :
    rowsFor header sIdx rows st =
      (keptRows header sIdx rows).filter (fun r => decide (keyOf sIdx r = st)) := by
  unfold rowsFor keptRows
  rw [List.filter_filter]
  refine List.filter_congr ?_
  intro r _
  by_cases h : keyOf sIdx r = st
  · simp [h]
  · simp [h]

/-- Claim C1.  The multiset of data rows written across all partition output
files, each read back through the recorded column indices of its partition's
schema at full header width, equals the multiset of the input's kept rows
(rows that parse without a field-count error and have more fields than the
key-column index): routing, enqueuing and writing neither drop nor duplicate
a row. -/
theorem processCSV_row_conservation (header : List String) (sIdx : Nat)
    (rows : List (List String)) :
    ((((partitionKeys header sIdx rows).map (fun st =>
        (outputRows header sIdx rows st).map
          (fun q => readBack (schemaIdx header sIdx rows st) q
            header.length))).flatten : List (List String)) : Multiset (List String)) =
    ((keptRows header sIdx rows : List (List String)) : Multiset (List String)) := by
  rw [coe_flatten_eq_sum, List.map_map]
  have hmaps : (partitionKeys header sIdx rows).map (Multiset.ofList ∘ fun st =>
      (outputRows header sIdx rows st).map
        (fun q => readBack (schemaIdx header sIdx rows st) q header.length)) =
      (partitionKeys header sIdx rows).map (fun st =>
        ((keptRows header sIdx rows : List (List String)) : Multiset (List String)).filter
          (fun r => keyOf sIdx r = st)) := by
    refine List.map_congr_left ?_
    intro st _
    simp only [Function.comp_apply, readBack_outputRows header sIdx rows st,
      rowsFor_eq_filter_kept header sIdx rows st]
    rw [← Multiset.filter_coe]
  rw [hmaps]
  refine sum_filter_partition _ (List.nodup_dedup _) _ _ ?_
  intro r hr
  have hr' : r ∈ keptRows header sIdx rows := Multiset.mem_coe.mp hr
  exact List.mem_dedup.mpr (List.mem_map.mpr ⟨r, hr', rfl⟩)

/-- Claim C2.  For every partition key: every emitted output row has exactly
as many fields as the partition's schema; every recorded schema index was
observed non-empty in at least one of that partition's rows in pass 1; and
the recorded indices are listed in strictly increasing (original header)
order. -/
theorem partitionSchema_sound (header : List String) (sIdx : Nat)
    (rows : List (List String)) (st : String) :
    (∀ q ∈ outputRows header sIdx rows st,
        q.length = (schemaIdx header sIdx rows st).length) ∧
    (∀ i ∈ schemaIdx header sIdx rows st,
        ∃ r ∈ rowsFor header sIdx rows st, ¬ r.getD i "" = "") ∧
    (schemaIdx header sIdx rows st).Pairwise (· < ·) := by
  refine ⟨?_, ?_, ?_⟩
  · intro q hq
    obtain ⟨r, _, hqe⟩ := List.mem_map.mp hq
    rw [← hqe]
    simp [project]
  · intro i hi
    have := (List.mem_filter.mp hi).2
    obtain ⟨r, hr, hcond⟩ := List.any_eq_true.mp this
    have h1 : keepRow header sIdx r = true :=
      ((Bool.and_eq_true _ _).mp ((Bool.and_eq_true _ _).mp hcond).1).1
    have h2 : keyOf sIdx r = st := by
      have := ((Bool.and_eq_true _ _).mp ((Bool.and_eq_true _ _).mp hcond).1).2
      simpa using this
    have h3 : ¬ r.getD i "" = "" := by
      have := ((Bool.and_eq_true _ _).mp hcond).2
      simpa using this
    exact ⟨r, List.mem_filter.mpr ⟨hr, by simp [h1, h2]⟩, h3⟩
  · exact List.Pairwise.filter _ (List.pairwise_lt_range _)

/-- Witness for C2 at the concrete scenario input. -/
theorem partitionSchema_sound_witness :
    (["1", "x", "", "1"] : List String).length =
      (schemaIdx ["time", "sourcetype", "a", "b"] 1
        [["1", "x", "", "1"], ["2", "x", "2", ""], ["3", "y", "3", "4"]] "x").length ∧
    (∃ r ∈ rowsFor ["time", "sourcetype", "a", "b"] 1
        [["1", "x", "", "1"], ["2", "x", "2", ""], ["3", "y", "3", "4"]] "x",
      ¬ r.getD 2 "" = "") :=
  ⟨(partitionSchema_sound ["time", "sourcetype", "a", "b"] 1
      [["1", "x", "", "1"], ["2", "x", "2", ""], ["3", "y", "3", "4"]] "x").1
      ["1", "x", "", "1"] (by decide),
   (partitionSchema_sound ["time", "sourcetype", "a", "b"] 1
      [["1", "x", "", "1"], ["2", "x", "2", ""], ["3", "y", "3", "4"]] "x").2.1
      2 (by decide)⟩

/-- Counterexample to claim C3 as stated: on the scenario input, partition
`x`'s output header is `time,sourcetype,a,b` — column `a` is NOT always
empty for `x` (row `(2,"x","2","")` has `a = "2"`), so it is not
`time,sourcetype,b`. -/
theorem scenario_x_schema_counterexample :
    ¬ (schemaNames ["time", "sourcetype", "a", "b"] 1
        [["1", "x", "", "1"], ["2", "x", "2", ""], ["3", "y", "3", "4"]] "x" =
      ["time", "sourcetype", "b"]) := by
  decide

/-- Claim C3 as amended by the counterexample: on the scenario input the
program produces partition file `x.csv` with header line
`time,sourcetype,a,b` (column `a` is non-empty in `x`'s second row) followed
by 2 data rows, and partition file `y.csv` with header line
`time,sourcetype,a,b` followed by 1 data row. -/
theorem scenario_partition_outputs :
    partitionKeys ["time", "sourcetype", "a", "b"] 1
      [["1", "x", "", "1"], ["2", "x", "2", ""], ["3", "y", "3", "4"]] = ["x", "y"] ∧
    outputFileName "x" = "x.csv" ∧
    schemaNames ["time", "sourcetype", "a", "b"] 1
      [["1", "x", "", "1"], ["2", "x", "2", ""], ["3", "y", "3", "4"]] "x" =
      ["time", "sourcetype", "a", "b"] ∧
    (outputRows ["time", "sourcetype", "a", "b"] 1
      [["1", "x", "", "1"], ["2", "x", "2", ""], ["3", "y", "3", "4"]] "x").length = 2 ∧
    outputFileName "y" = "y.csv" ∧
    schemaNames ["time", "sourcetype", "a", "b"] 1
      [["1", "x", "", "1"], ["2", "x", "2", ""], ["3", "y", "3", "4"]] "y" =
      ["time", "sourcetype", "a", "b"] ∧
    (outputRows ["time", "sourcetype", "a", "b"] 1
      [["1", "x", "", "1"], ["2", "x", "2", ""], ["3", "y", "3", "4"]] "y").length = 1 := by
  decide

/-!  ### Idempotence of `sanitizeFilename` -/

/-- Adjacency invariant established by the underscore-collapsing step: no two
consecutive underscores. -/
def NoRun (a b : Char) : Prop :=
  ¬ (a = '_' ∧ b = '_')

theorem mem_collapseAux {c : Char} : ∀ {b : Bool} {l : List Char},
    c ∈ collapseAux b l → c ∈ l := by
  intro b l
  induction l generalizing b with
  | nil => intro h; simp [collapseAux] at h
  | cons x rest ih =>
    intro h
    by_cases hx : x == '_'
    · have hxe : x = '_' := by simpa using hx
      cases b with
      | true =>
        have hm : c ∈ collapseAux true rest := by simpa [collapseAux, hx] using h
        exact List.mem_cons.mpr (Or.inr (ih hm))
      | false =>
        have hm : c = '_' ∨ c ∈ collapseAux true rest := by
          simpa [collapseAux, hx] using h
        rcases hm with he | hm
        · exact List.mem_cons.mpr (Or.inl (he.trans hxe.symm))
        · exact List.mem_cons.mpr (Or.inr (ih hm))
    · have hm : c = x ∨ c ∈ collapseAux false rest := by
        simpa [collapseAux, hx] using h
      rcases hm with he | hm
      · exact List.mem_cons.mpr (Or.inl he)
      · exact List.mem_cons.mpr (Or.inr (ih hm))

theorem head_collapseAux_true : ∀ (l : List Char),
    ∀ y ∈ (collapseAux true l).head?, ¬ y = '_' := by
  intro l
  induction l with
  | nil => intro y hy; simp [collapseAux] at hy
  | cons x rest ih =>
    intro y hy
    by_cases hx : x == '_'
    · exact ih y (by simpa [collapseAux, hx] using hy)
    · have hyx : y = x := by
        have := by simpa [collapseAux, hx] using hy
        exact this.symm
      subst hyx
      simpa using hx

theorem chain'_collapseAux : ∀ (b : Bool) (l : List Char),
    (collapseAux b l).Chain' NoRun := by
  intro b l
  induction l generalizing b with
  | nil => simp [collapseAux]
  | cons x rest ih =>
    by_cases hx : x == '_'
    · cases b with
      | true => simpa [collapseAux, hx] using ih true
      | false =>
        have hgoal : (collapseAux false (x :: rest)) =
            '_' :: collapseAux true rest := by
          simp [collapseAux, hx]
        rw [hgoal]
        refine List.chain'_cons'.mpr ⟨?_, ih true⟩
        intro y hy hcontra
        exact head_collapseAux_true rest y hy hcontra.2
    · have hgoal : (collapseAux b (x :: rest)) = x :: collapseAux false rest := by
        simp [collapseAux, hx]
      rw [hgoal]
      refine List.chain'_cons'.mpr ⟨?_, ih false⟩
      intro y hy hcontra
      exact (by simpa using hx : ¬ x = '_') hcontra.1

theorem collapseAux_eq_self : ∀ (l : List Char) (b : Bool),
    l.Chain' NoRun → (b = true → ∀ y ∈ l.head?, ¬ y = '_') →
    collapseAux b l = l := by
  intro l
  induction l with
  | nil => intro b _ _; simp [collapseAux]
  | cons x rest ih =>
    intro b hch hhd
    have hch' := List.chain'_cons'.mp hch
    by_cases hx : x == '_'
    · have hxe : x = '_' := by simpa using hx
      cases b with
      | true => exact absurd hxe (hhd rfl x (by simp))
      | false =>
        have hgoal : (collapseAux false (x :: rest)) =
            '_' :: collapseAux true rest := by
          simp [collapseAux, hx]
        rw [hgoal, hxe]
        congr 1
        refine ih true hch'.2 ?_
        intro _ y hy hye
        exact hch'.1 y hy ⟨hxe, hye⟩
    · have hgoal : (collapseAux b (x :: rest)) = x :: collapseAux false rest := by
        simp [collapseAux, hx]
      rw [hgoal]
      congr 1
      exact ih false hch'.2 (by intro h; simp at h)

theorem map_id_of {l : List Char} (h : ∀ c ∈ l, replCh c = c) :
    l.map replCh = l := by
  induction l with
  | nil => rfl
  | cons x rest ih =>
    simp only [List.map_cons, h x (by simp)]
    congr 1
    exact ih (fun c hc => h c (List.mem_cons.mpr (Or.inr hc)))

theorem illegal_replCh (c : Char) : illegalChar (replCh c) = false := by
  unfold replCh
  by_cases h : illegalChar c = true
  · rw [if_pos h]
    decide
  · rw [if_neg h]
    exact Bool.not_eq_true _ ▸ h

/-- Decomposition: the trimmed result is an infix of its input. -/
theorem trim_decomp (x : List Char) :
    ∃ s u, x = s ++ trimRight (trimLeft x) ++ u := by
  obtain ⟨s, hs⟩ := List.dropWhile_suffix (l := x) trimCh
  obtain ⟨u, hu⟩ := List.dropWhile_suffix (l := (trimLeft x).reverse) trimCh
  refine ⟨s, u.reverse, ?_⟩
  have h1 : trimLeft x = (u ++ (trimLeft x).reverse.dropWhile trimCh).reverse := by
    rw [hu, List.reverse_reverse]
  rw [List.reverse_append] at h1
  calc x = s ++ trimLeft x := hs.symm
    _ = s ++ (((trimLeft x).reverse.dropWhile trimCh).reverse ++ u.reverse) := by
        rw [← h1]
    _ = s ++ trimRight (trimLeft x) ++ u.reverse := by
        rw [trimRight, List.append_assoc]

theorem dropWhile_eq_self_of_head {l : List Char} (hne : l ≠ [])
    (hhd : ∀ y ∈ l.head?, trimCh y = false) :
    l.dropWhile trimCh = l := by
  cases l with
  | nil => exact absurd rfl hne
  | cons c rest =>
    have hc : trimCh c = false := hhd c (by simp)
    simp [List.dropWhile_cons, hc]

theorem trimRight_trimRight (y : List Char) :
    trimRight (trimRight y) = trimRight y := by
  unfold trimRight
  rw [List.reverse_reverse, List.dropWhile_idempotent]

/-- The head character of a nonempty trim result is not in the cutset. -/
theorem head_trim {x : List Char} (hne : trimRight (trimLeft x) ≠ []) :
    ∀ y ∈ (trimRight (trimLeft x)).head?, trimCh y = false := by
  intro y hy
  obtain ⟨u, hu⟩ := List.dropWhile_suffix (l := (trimLeft x).reverse) trimCh
  have hpre : trimRight (trimLeft x) ++ u.reverse = trimLeft x := by
    have h1 : trimLeft x = (u ++ (trimLeft x).reverse.dropWhile trimCh).reverse := by
      rw [hu, List.reverse_reverse]
    rw [List.reverse_append] at h1
    rw [trimRight]
    exact h1.symm
  cases hc : trimRight (trimLeft x) with
  | nil => exact absurd hc hne
  | cons c rest =>
    have hy' : y = c := by
      rw [hc] at hy
      have := by simpa using hy
      exact this.symm
    subst hy'
    have hhead : (trimLeft x).head? = some y := by
      rw [← hpre, hc]
      simp
    have := List.head?_dropWhile_not trimCh x
    rw [show List.dropWhile trimCh x = trimLeft x from rfl, hhead] at this
    exact this

/-- `sanitizeList` is idempotent. -/
theorem sanitizeList_idem (l : List Char) :
    sanitizeList (sanitizeList l) = sanitizeList l := by
  unfold sanitizeList
  set t := trimRight (trimLeft (collapse (l.map replCh))) with ht
  by_cases hte : t = []
  · rw [if_pos hte]
    decide
  · rw [if_neg hte]
    -- every character of t is legal
    obtain ⟨s, u, hdec⟩ := trim_decomp (collapse (l.map replCh))
    have hmem_t : ∀ c ∈ t, c ∈ collapse (l.map replCh) := by
      intro c hc
      rw [hdec]
      simp only [List.mem_append]
      exact Or.inl (Or.inr hc)
    have hmap : t.map replCh = t := by
      refine map_id_of ?_
      intro c hc
      have h1 : c ∈ l.map replCh := mem_collapseAux (hmem_t c hc)
      obtain ⟨c0, _, hce⟩ := List.mem_map.mp h1
      have : illegalChar c = false := hce ▸ illegal_replCh c0
      unfold replCh
      rw [this]
      simp
    -- t has no double underscores, so collapsing is the identity
    have hchain : t.Chain' NoRun := by
      have h0 : (collapse (l.map replCh)).Chain' NoRun := chain'_collapseAux false _
      rw [hdec] at h0
      exact (List.Chain'.left_of_append h0).right_of_append
    have hcol : collapse t = t :=
      collapseAux_eq_self t false hchain (by intro h; simp at h)
    -- t is already trimmed on both sides
    have hleft : trimLeft t = t :=
      dropWhile_eq_self_of_head hte (head_trim (ht ▸ hte))
    have hright : trimRight t = t := by
      rw [ht]
      exact trimRight_trimRight _
    rw [hmap, hcol, hleft, hright, if_neg hte]

/-- Claim C9.  Partition-key filename sanitization is idempotent: sanitizing
an already-sanitized key returns it unchanged. -/
theorem sanitizeFilename_idempotent (s : String) :
    sanitizeFilename (sanitizeFilename s) = sanitizeFilename s := by
  unfold sanitizeFilename
  exact congrArg String.mk (sanitizeList_idem s.toList)

end Split

namespace Publish

/-!  ## The publish package: `Transformer` and the batching/retry loop

JSON values reachable through `json.Unmarshal` into `map[string]any` are
embedded as the closed variant `Value`; Go's `map[string]any` becomes an
association list with overwrite-on-insert.  The external JSON parser
(`encoding/json`) and the external timestamp rewriter used inside
`applyTimeOffsets` (`regexp` + `araddon/dateparse` + `time.Format`) are not
part of this repository; the embedding takes them as explicit function
parameters (`pj` and `tsrw`), so every theorem below holds for arbitrary
behaviors of those libraries.  -/

inductive Value where
  | vstr : String → Value
  | vnum : Int → Value
  | vbool : Bool → Value
  | vnull : Value
  | vmap : List (String × Value) → Value
  | varr : List Value → Value

/-- `hec.Event`: the payload sent to the Splunk HTTP event collector. -/
structure Event where
  Time : Option Int := none
  Host : String := ""
  Source : String := ""
  SourceType : String := ""
  Index : String := ""
  Event : List (String × Value) := []

/-- `TransformerConfig`, with Go zero values as structure defaults.
`DefaultTimestamp` carries `t.Unix()` (epoch seconds) of the configured
default; `TimeOffset` carries whole seconds of the configured duration
(`int64(offset.Seconds())` is what the code adds to event timestamps). -/
structure TransformerConfig where
  SourceType : String := ""
  TimeField : String := ""
  TimeFormat : String := ""
  ExcludeFields : List String := []
  FieldMappings : List (String × String) := []
  ConstantFields : List (String × String) := []
  StrictMapping : Bool := false
  PreserveNulls : Bool := false
  Host : String := ""
  Source : String := ""
  Index : String := ""
  DiscardInvalid : Bool := false
  DefaultTimestamp : Option Int := none
  TimeOffset : Int := 0
deriving DecidableEq

/-- `NewDefaultTransformerConfig`. -/
def newDefaultTransformerConfig : TransformerConfig :=
  { TimeField := "_time", TimeFormat := "epoch" }

/-- Go map overwrite-insert on an association list (`m[k] = v`). -/
def mapInsert (m : List (String × Value)) (k : String) (v : Value) :
    List (String × Value) :=
  if m.any (fun p => p.1 == k) then
    m.map (fun p => if p.1 == k then (k, v) else p)
  else m ++ [(k, v)]

/-- Association-list lookup (Go map read). -/
def lookupVal (m : List (String × Value)) (k : String) : Option Value :=
  (m.find? (fun p => p.1 == k)).map (fun p => p.2)

def lookupStr (m : List (String × String)) (k : String) : Option String :=
  (m.find? (fun p => p.1 == k)).map (fun p => p.2)

/-- `headerIndices` construction: `for i, h := range header { m[h] = i }`
keeps the LAST index of a duplicated column name. -/
def lastIdxOf? (l : List String) (s : String) : Option Nat :=
  l.enum.foldl (fun acc p => if p.2 == s then some p.1 else acc) none

/-!  ### `parseTimestamp`: Go `time.Parse(time.RFC3339, s).Unix()` -/

def digVal (c : Char) : Option Nat :=
  if c.isDigit then some (c.toNat - '0'.toNat) else none

/-- Parse exactly `w` decimal digits. -/
def parseFixed : Nat → Nat → List Char → Option (Nat × List Char)
  | 0, acc, cs => some (acc, cs)
  | w + 1, acc, cs =>
    match cs with
    | [] => none
    | c :: cs' =>
      match digVal c with
      | some d => parseFixed w (acc * 10 + d) cs'
      | none => none

def expectCh (c : Char) : List Char → Option (List Char)
  | [] => none
  | x :: xs => if x = c then some xs else none

/-- Go's `time.Parse` accepts an optional fractional-second field (a dot or
comma followed by at least one digit) after the seconds even though the
RFC3339 layout does not show one; `Unix()` then truncates it. -/
def dropFrac : List Char → Option (List Char)
  | [] => some []
  | c :: rest =>
    if c = '.' ∨ c = ',' then
      if (rest.takeWhile Char.isDigit).isEmpty then none
      else some (rest.dropWhile Char.isDigit)
    else some (c :: rest)

/-- Zone designator of the `Z07:00` layout element: `Z` or `±hh:mm`;
returns the zone offset in seconds. -/
def parseZone : List Char → Option (Int × List Char)
  | [] => none
  | c :: rest =>
    if c = 'Z' then some (0, rest)
    else if c = '+' ∨ c = '-' then
      match parseFixed 2 0 rest with
      | none => none
      | some (zh, r1) =>
        match expectCh ':' r1 with
        | none => none
        | some r2 =>
          match parseFixed 2 0 r2 with
          | none => none
          | some (zm, r3) =>
            if zh ≤ 23 ∧ zm ≤ 59 then
              let off : Int := (zh : Int) * 3600 + (zm : Int) * 60
              some (if c = '-' then -off else off, r3)
            else none
    else none

def isLeap (y : Nat) : Bool :=
  y % 4 == 0 && (y % 100 != 0 || y % 400 == 0)

def daysInMonth (y m : Nat) : Nat :=
  if m = 2 then (if isLeap y then 29 else 28)
  else if m = 4 ∨ m = 6 ∨ m = 9 ∨ m = 11 then 30
  else 31

/-- Days between a civil date and 1970-01-01 (proleptic Gregorian). -/
def daysFromCivil (y m d : Nat) : Int :=
  let yAdj : Int := if m ≤ 2 then (y : Int) - 1 else (y : Int)
  let era : Int := yAdj.fdiv 400
  let yoe : Int := yAdj - era * 400
  let mp : Int := ((m : Int) + 9) % 12
  let doy : Int := (153 * mp + 2) / 5 + (d : Int) - 1
  let doe : Int := yoe * 365 + yoe / 4 - yoe / 100 + doy
  era * 146097 + doe - 719468

/-- Embeds Go `time.Parse(time.RFC3339, timeStr)` followed by `.Unix()` as
done by `parseTimestamp`: epoch seconds of
`YYYY-MM-DDThh:mm:ss[.frac](Z|±hh:mm)`, `none` on any parse error. -/
def parseTimestamp (s : String) : Option Int := do
  let cs := s.toList
  let (y, r1) ← parseFixed 4 0 cs
  let r2 ← expectCh '-' r1
  let (mo, r3) ← parseFixed 2 0 r2
  let r4 ← expectCh '-' r3
  let (d, r5) ← parseFixed 2 0 r4
  let r6 ← expectCh 'T' r5
  let (h, r7) ← parseFixed 2 0 r6
  let r8 ← expectCh ':' r7
  let (mi, r9) ← parseFixed 2 0 r8
  let r10 ← expectCh ':' r9
  let (sec, r11) ← parseFixed 2 0 r10
  let r12 ← dropFrac r11
  let (zoff, r13) ← parseZone r12
  if r13 = [] ∧ 1 ≤ mo ∧ mo ≤ 12 ∧ 1 ≤ d ∧ d ≤ daysInMonth y mo ∧
      h ≤ 23 ∧ mi ≤ 59 ∧ sec ≤ 59 then
    some (daysFromCivil y mo d * 86400 + (h : Int) * 3600 + (mi : Int) * 60 +
      (sec : Int) - zoff)
  else none

/-!  ### `transformRecord` -/

/-- The `_raw` detection step of `transformRecord`: look the `_raw` column
up in `headerIndices`, require it in range and non-empty, and hand the value
to the JSON parser `pj` (`json.Unmarshal` into `map[string]any`); `some obj`
means the value parses as a JSON object `obj`. -/
def rawParse (pj : String → Option (List (String × Value)))
    (header record : List String) : Option (List (String × Value)) :=
  match lastIdxOf? header "_raw" with
  | some ri =>
    if ri < record.length then
      let rawValue := record.getD ri ""
      if rawValue ≠ "" then pj rawValue else none
    else none
  | none => none

/-- The `case "_raw"` body (its tail): a non-JSON, non-empty `_raw` value is
inserted into the field mapping; the body has no trailing `continue`, so
control continues into the shared post-switch tail. -/
def rawInsStep (fieldName value : String) (acc : Event) : Event :=
  if fieldName = "_raw" ∧ ¬ value = "" then
    { acc with Event := mapInsert acc.Event "_raw" (Value.vstr value) }
  else acc

/-- `fieldName` after the configured remapping: `FieldMappings` wins; with
strict mapping an unmapped field is dropped (`none`). -/
def mappedName (cfg : TransformerConfig) (fieldName : String) : Option String :=
  match lookupStr cfg.FieldMappings fieldName with
  | some m => some m
  | none => if cfg.StrictMapping then none else some fieldName

/-- The shared tail of the field loop after the `switch` (reached by
fall-through): raw-JSON mode skips everything; then exclusion, the
time-index skip, remapping/strict-mapping, the empty-value skip, and the
final insert. -/
def postSwitch (cfg : TransformerConfig) (rawIsJSON : Bool) (timeIndex : Int)
    (excludeFields : List String) (fieldName : String) (i : Nat)
    (value : String) (acc1 : Event) : Event :=
  if rawIsJSON then acc1
  else if fieldName ∈ excludeFields then acc1
  else if (i : Int) = timeIndex then acc1
  else
    match mappedName cfg fieldName with
    | none => acc1
    | some fn =>
      if value = "" ∧ ¬ cfg.PreserveNulls then acc1
      else { acc1 with Event := mapInsert acc1.Event fn (Value.vstr value) }

/-- One iteration of `transformRecord`'s field loop (`for i, value := range
record`), translating the Go `switch` including its fall-through to the
shared tail (`rawInsStep` then `postSwitch`); the metadata cases fall
through when the corresponding config default is empty. -/
def processField (cfg : TransformerConfig) (rawIsJSON : Bool) (timeIndex : Int)
    (excludeFields : List String) (header : List String) (acc : Event)
    (i : Nat) (value : String) : Event :=
  if header.length ≤ i then acc
  else if header.getD i "" = cfg.TimeField then acc
  else if header.getD i "" = "_raw" ∧ rawIsJSON then acc
  else if header.getD i "" = "host" ∧ ¬ cfg.Host = "" then
    { acc with Host := cfg.Host }
  else if header.getD i "" = "source" ∧ ¬ cfg.Source = "" then
    { acc with Source := cfg.Source }
  else if header.getD i "" = "sourcetype" ∧ ¬ cfg.SourceType = "" then
    { acc with SourceType := cfg.SourceType }
  else if header.getD i "" = "index" ∧ ¬ cfg.Index = "" then
    { acc with Index := cfg.Index }
  else if header.getD i "" = "punct" then acc
  else postSwitch cfg rawIsJSON timeIndex excludeFields (header.getD i "") i
    value (rawInsStep (header.getD i "") value acc)

def processFields (cfg : TransformerConfig) (rawIsJSON : Bool) (timeIndex : Int)
    (excludeFields : List String) (header record : List String) (ev : Event) :
    Event :=
  record.enum.foldl (fun acc p =>
    processField cfg rawIsJSON timeIndex excludeFields header acc p.1 p.2) ev

/-- Final step of `transformRecord`: merge the configured constant fields
(`for key, value := range t.config.ConstantFields`). -/
def addConstants (cfg : TransformerConfig) (ev : Event) : Event :=
  { ev with
      Event :=
        cfg.ConstantFields.foldl (fun m p => mapInsert m p.1 (Value.vstr p.2))
          ev.Event }

/-- The non-error tail of `transformRecord` after timestamp processing:
`_raw` JSON detection, the field loop, and constant-field merging. -/
def transformTail (pj : String → Option (List (String × Value)))
    (cfg : TransformerConfig) (record header : List String) (timeIndex : Int)
    (excludeFields : List String) (ev : Event) : Event × Option String :=
  let rawOpt := rawParse pj header record
  let ev1 := { ev with Event := rawOpt.getD [] }
  let ev2 := processFields cfg rawOpt.isSome timeIndex excludeFields header
    record ev1
  (addConstants cfg ev2, none)

/-- The freshly initialized event at the top of `transformRecord`. -/
def initEvent (cfg : TransformerConfig) : Event :=
  { SourceType := cfg.SourceType, Host := cfg.Host, Source := cfg.Source,
    Index := cfg.Index, Event := [] }

/-- Timestamp processing of `transformRecord`: `none` encodes the
discard-invalid error return; `some ev` carries the event (with `Time` set
from the parsed value, the configured default, or left unset) into the rest
of the function. -/
def timeStep (cfg : TransformerConfig) (record : List String)
    (timeIndex : Int) : Option Event :=
  if 0 ≤ timeIndex ∧ timeIndex < (record.length : Int) then
    match parseTimestamp (record.getD timeIndex.toNat "") with
    | none =>
      if cfg.DiscardInvalid then none
      else some { initEvent cfg with Time := cfg.DefaultTimestamp }
    | some ts => some { initEvent cfg with Time := some ts }
  else some { initEvent cfg with Time := cfg.DefaultTimestamp }

/-- `transformRecord`: converts a single CSV record to a Splunk event.
Returns the event together with an optional error, exactly as the Go
function returns `(hec.Event, error)`. -/
def transformRecord (pj : String → Option (List (String × Value)))
    (cfg : TransformerConfig) (record header : List String) (timeIndex : Int)
    (excludeFields : List String) : Event × Option String :=
  match timeStep cfg record timeIndex with
  | none => (initEvent cfg, some "invalid timestamp")
  | some ev => transformTail pj cfg record header timeIndex excludeFields ev

/-!  ### `applyTimeOffsets`

`tsrw off s` stands for the external string-rewriting performed on string
values (regex full/contains matching, `dateparse.ParseAny`, `Add(offset)`,
`Format(time.RFC3339)`, substring replacement); the nesting structure below
is the code's own: recurse into nested maps and into map elements of
slices, leave every other value (including strings inside slices)
untouched. -/

mutual

def applyOffsetV (tsrw : Int → String → String) (off : Int) : Value → Value
  | .vstr s => .vstr (tsrw off s)
  | .vnum n => .vnum n
  | .vbool b => .vbool b
  | .vnull => .vnull
  | .vmap m => .vmap (applyOffsetM tsrw off m)
  | .varr xs => .varr (applyOffsetA tsrw off xs)

def applyOffsetM (tsrw : Int → String → String) (off : Int) :
    List (String × Value) → List (String × Value)
  | [] => []
  | (k, v) :: rest => (k, applyOffsetV tsrw off v) :: applyOffsetM tsrw off rest

def applyOffsetA (tsrw : Int → String → String) (off : Int) :
    List Value → List Value
  | [] => []
  | Value.vmap m :: rest =>
    Value.vmap (applyOffsetM tsrw off m) :: applyOffsetA tsrw off rest
  | x :: rest => x :: applyOffsetA tsrw off rest

end

/-- `applyTimeOffsets`: shift the event's top-level epoch timestamp by the
offset's seconds and rewrite timestamps inside the field mapping. -/
def applyTimeOffsets (tsrw : Int → String → String) (off : Int) (ev : Event) :
    Event :=
  { ev with
      Time := ev.Time.map (fun t => t + off),
      Event := applyOffsetM tsrw off ev.Event }

/-- The time-offset step of `TransformCSV`:
`if t.config.TimeOffset != 0 { applyTimeOffsets(&event, t.config.TimeOffset) }`. -/
def applyOffsetStep (tsrw : Int → String → String) (off : Int) (ev : Event) :
    Event :=
  if off ≠ 0 then applyTimeOffsets tsrw off ev else ev

/-!  ### `TransformCSV` -/

/-- Time-index resolution at the top of `TransformCSV`.  When the time field
is missing from the header the error is raised only when `DiscardInvalid`
is unset AND no default timestamp is configured; otherwise `timeIndex`
keeps the zero value `0` that Go's `timeIndex, ok = headerIndices[...]`
assignment left behind (the declared `-1` is overwritten). -/
def resolveTimeIndex (cfg : TransformerConfig) (header : List String) :
    Except String Int :=
  if cfg.TimeField = "" then .ok (-1)
  else
    match lastIdxOf? header cfg.TimeField with
    | some i => .ok (i : Int)
    | none =>
      if ¬ cfg.DiscardInvalid ∧ cfg.DefaultTimestamp = none then
        .error "time field not found in CSV header"
      else .ok 0

/-- The record loop of `TransformCSV`: a CSV read error (embedded as a
field-count mismatch) aborts the whole transform; a record-level transform
error aborts unless `DiscardInvalid` skips the record; surviving events get
the time-offset step applied before collection. -/
def transformRows (pj : String → Option (List (String × Value)))
    (tsrw : Int → String → String) (cfg : TransformerConfig)
    (header : List String) (timeIndex : Int) (excludeFields : List String) :
    List (List String) → Except String (List Event)
  | [] => .ok []
  | r :: rs =>
    if r.length ≠ header.length then .error "error reading CSV"
    else
      match (transformRecord pj cfg r header timeIndex excludeFields).2 with
      | some e =>
        if cfg.DiscardInvalid then
          transformRows pj tsrw cfg header timeIndex excludeFields rs
        else .error e
      | none =>
        match transformRows pj tsrw cfg header timeIndex excludeFields rs with
        | .ok evs => .ok (applyOffsetStep tsrw cfg.TimeOffset
            (transformRecord pj cfg r header timeIndex excludeFields).1 :: evs)
        | .error e => .error e

/-- `TransformCSV` on an already-parsed CSV (header plus records). -/
def transformCSV (pj : String → Option (List (String × Value)))
    (tsrw : Int → String → String) (cfg : TransformerConfig)
    (header : List String) (rows : List (List String)) :
    Except String (List Event) :=
  match resolveTimeIndex cfg header with
  | .error e => .error e
  | .ok timeIndex =>
    transformRows pj tsrw cfg header timeIndex cfg.ExcludeFields rows

def isErr {α : Type} : Except String α → Bool
  | .error _ => true
  | .ok _ => false

/-!  ### The batching/retry loop of `processFile`

`sink a` is the outcome of delivery attempt `a` of a batch
(`HECClient.SendEvents`, an opaque external sink: `true` = success). -/

/-- `for retry := 0; retry < remaining; retry++ { ... }` with `sendErr`
tracking failure state (`pendingOk` = `sendErr == nil`); returns the number
of `SendEvents` calls made and whether the loop ended in success. -/
def retryGo (sink : Nat → Bool) : Nat → Nat → Bool → Nat × Bool
  | _, 0, pendingOk => (0, pendingOk)
  | attempt, r + 1, _ =>
    if sink attempt then (1, true)
    else
      let res := retryGo sink (attempt + 1) r false
      (res.1 + 1, res.2)

/-- Counter update for one batch of `bLen` events: delivered batches add to
the published count, an exhausted batch adds to the failed count and
reports failure. -/
def batchStep (sinkB : Nat → Bool) (retryCount : Nat)
    (published failed bLen : Nat) : Nat × Nat × Bool :=
  if (retryGo sinkB 0 retryCount true).2 then (published + bLen, failed, true)
  else (published, failed + bLen, false)

/-- The per-file batch loop of `processFile` over the batch sizes of a file
(`sink i a` = outcome of attempt `a` for batch `i`): accumulates
(published, failed, no-error); stops at the first batch that exhausts its
retries. -/
def processBatchList (sink : Nat → Nat → Bool) (retryCount : Nat) :
    Nat → List Nat → Nat × Nat × Bool
  | _, [] => (0, 0, true)
  | idx, bLen :: rest =>
    if (retryGo (sink idx) 0 retryCount true).2 then
      let res := processBatchList sink retryCount (idx + 1) rest
      (bLen + res.1, res.2.1, res.2.2)
    else (0, bLen, false)

end Publish

namespace Publish

/-!  ### Properties of `transformRecord` / `TransformCSV` -/

/-- The metadata-attribute invariant: an event whose attributes carry the
configured defaults. -/
def AttrsEq (cfg : TransformerConfig) (ev : Event) : Prop :=
  ev.Host = cfg.Host ∧ ev.Source = cfg.Source ∧
    ev.SourceType = cfg.SourceType ∧ ev.Index = cfg.Index

theorem rawInsStep_event_update (fieldName value : String) (acc : Event) :
    ∃ m, rawInsStep fieldName value acc = { acc with Event := m } := by
  unfold rawInsStep
  split_ifs
  · exact ⟨_, rfl⟩
  · exact ⟨acc.Event, rfl⟩

theorem postSwitch_event_update (cfg : TransformerConfig) (rawIsJSON : Bool)
    (timeIndex : Int) (excl : List String) (fieldName : String) (i : Nat)
    (value : String) (acc1 : Event) :
    ∃ m, postSwitch cfg rawIsJSON timeIndex excl fieldName i value acc1 =
      { acc1 with Event := m } := by
  unfold postSwitch
  by_cases h1 : rawIsJSON
  · rw [if_pos h1]
    exact ⟨acc1.Event, rfl⟩
  · rw [if_neg h1]
    by_cases h2 : fieldName ∈ excl
    · rw [if_pos h2]
      exact ⟨acc1.Event, rfl⟩
    · rw [if_neg h2]
      by_cases h3 : (i : Int) = timeIndex
      · rw [if_pos h3]
        exact ⟨acc1.Event, rfl⟩
      · rw [if_neg h3]
        cases hmn : mappedName cfg fieldName with
        | none => exact ⟨acc1.Event, rfl⟩
        | some fn =>
          by_cases h4 : value = "" ∧ ¬ cfg.PreserveNulls
          · exact ⟨acc1.Event, if_pos h4⟩
          · exact ⟨mapInsert acc1.Event fn (Value.vstr value), if_neg h4⟩

theorem processField_attrs (cfg : TransformerConfig) (rawIsJSON : Bool)
    (timeIndex : Int) (excl : List String) (header : List String) (acc : Event)
    (i : Nat) (v : String) (h : AttrsEq cfg acc) :
    AttrsEq cfg (processField cfg rawIsJSON timeIndex excl header acc i v) := by
  obtain ⟨h1, h2, h3, h4⟩ := h
  unfold processField
  split_ifs
  · exact ⟨h1, h2, h3, h4⟩
  · exact ⟨h1, h2, h3, h4⟩
  · exact ⟨h1, h2, h3, h4⟩
  · exact ⟨rfl, h2, h3, h4⟩
  · exact ⟨h1, rfl, h3, h4⟩
  · exact ⟨h1, h2, rfl, h4⟩
  · exact ⟨h1, h2, h3, rfl⟩
  · exact ⟨h1, h2, h3, h4⟩
  · obtain ⟨m0, e0⟩ := rawInsStep_event_update (header.getD i "") v acc
    obtain ⟨m1, e1⟩ := postSwitch_event_update cfg rawIsJSON timeIndex excl
      (header.getD i "") i v (rawInsStep (header.getD i "") v acc)
    rw [e1, e0]
    exact ⟨h1, h2, h3, h4⟩

theorem processFields_attrs (cfg : TransformerConfig) (rawIsJSON : Bool)
    (timeIndex : Int) (excl : List String) (header record : List String)
    (ev : Event) (h : AttrsEq cfg ev) :
    AttrsEq cfg (processFields cfg rawIsJSON timeIndex excl header record ev) := by
  unfold processFields
  generalize record.enum = l
  induction l generalizing ev with
  | nil => exact h
  | cons p rest ih =>
    simp only [List.foldl_cons]
    exact ih _ (processField_attrs cfg rawIsJSON timeIndex excl header ev p.1
      p.2 h)

theorem addConstants_attrs (cfg : TransformerConfig) (ev : Event)
    (h : AttrsEq cfg ev) : AttrsEq cfg (addConstants cfg ev) := h

theorem transformTail_attrs (pj : String → Option (List (String × Value)))
    (cfg : TransformerConfig) (record header : List String) (timeIndex : Int)
    (excl : List String) (ev : Event) (h : AttrsEq cfg ev) :
    AttrsEq cfg (transformTail pj cfg record header timeIndex excl ev).1 :=
  addConstants_attrs cfg _ (processFields_attrs cfg _ timeIndex excl header
    record _ h)

theorem timeStep_none_iff (cfg : TransformerConfig) (record : List String)
    (timeIndex : Int) :
    timeStep cfg record timeIndex = none ↔
      (cfg.DiscardInvalid = true ∧ 0 ≤ timeIndex ∧
        timeIndex < (record.length : Int) ∧
        parseTimestamp (record.getD timeIndex.toNat "") = none) := by
  unfold timeStep
  by_cases hcond : 0 ≤ timeIndex ∧ timeIndex < (record.length : Int)
  · rw [if_pos hcond]
    cases hp : parseTimestamp (record.getD timeIndex.toNat "") with
    | none =>
      by_cases hd : cfg.DiscardInvalid
      · simp [hd, hcond.1, hcond.2]
      · simp [hd]
    | some ts => simp
  · rw [if_neg hcond]
    constructor
    · intro h
      exact absurd h (by simp)
    · intro h
      exact absurd ⟨h.2.1, h.2.2.1⟩ hcond

theorem timeStep_some (cfg : TransformerConfig) (record : List String)
    (timeIndex : Int) (ev : Event) (h : timeStep cfg record timeIndex = some ev) :
    ∃ t, ev = { initEvent cfg with Time := t } := by
  unfold timeStep at h
  by_cases hcond : 0 ≤ timeIndex ∧ timeIndex < (record.length : Int)
  · rw [if_pos hcond] at h
    cases hp : parseTimestamp (record.getD timeIndex.toNat "") with
    | none =>
      rw [hp] at h
      by_cases hd : cfg.DiscardInvalid
      · rw [if_pos hd] at h
        simp at h
      · rw [if_neg hd] at h
        simp only [Option.some.injEq] at h
        exact ⟨cfg.DefaultTimestamp, h.symm⟩
    | some ts =>
      rw [hp] at h
      simp only [Option.some.injEq] at h
      exact ⟨some ts, h.symm⟩
  · rw [if_neg hcond] at h
    simp only [Option.some.injEq] at h
    exact ⟨cfg.DefaultTimestamp, h.symm⟩

/-- Claim C5 as amended: the produced event's metadata attributes (Host,
Source, SourceType, Index) always equal the configured values, for every
record — a row-level value in a `host`/`source`/`sourcetype`/`index` column
never populates the corresponding attribute (when the configured default is
empty, the Go `switch` case falls through and the row value is routed into
the field mapping instead). -/
theorem transformRecord_attrs_eq_config
    (pj : String → Option (List (String × Value))) (cfg : TransformerConfig)
    (record header : List String) (timeIndex : Int) (excl : List String) :
    (transformRecord pj cfg record header timeIndex excl).1.Host = cfg.Host ∧
    (transformRecord pj cfg record header timeIndex excl).1.Source = cfg.Source ∧
    (transformRecord pj cfg record header timeIndex excl).1.SourceType =
      cfg.SourceType ∧
    (transformRecord pj cfg record header timeIndex excl).1.Index = cfg.Index := by
  unfold transformRecord
  cases hts : timeStep cfg record timeIndex with
  | none => exact ⟨rfl, rfl, rfl, rfl⟩
  | some ev =>
    obtain ⟨t, rfl⟩ := timeStep_some cfg record timeIndex ev hts
    exact transformTail_attrs pj cfg record header timeIndex excl _
      ⟨rfl, rfl, rfl, rfl⟩

/-- Counterexample to claim C5 as stated: with no configured Host default,
a row carrying `host = "h1"` does NOT populate the event's Host attribute
(it stays empty); the value lands in the field mapping instead. -/
theorem rowHost_not_attr_counterexample :
    ¬ ((transformRecord (fun _ => none) ({} : TransformerConfig) ["h1"]
        ["host"] (-1) []).1.Host = "h1") ∧
    (transformRecord (fun _ => none) ({} : TransformerConfig) ["h1"]
        ["host"] (-1) []).1.Host = "" ∧
    (transformRecord (fun _ => none) ({} : TransformerConfig) ["h1"]
        ["host"] (-1) []).1.Event = [("host", Value.vstr "h1")] := by
  refine ⟨?_, rfl, rfl⟩
  intro h
  have h2 : ("" : String) = "h1" := h
  simp at h2

/-- Claim C10.  `transformRecord` returns an error iff discard-invalid is
configured, the designated timestamp index is in range for the record, and
the value there fails to parse as an RFC-3339 timestamp; every other record
yields an event without error. -/
theorem transformRecord_error_iff
    (pj : String → Option (List (String × Value))) (cfg : TransformerConfig)
    (record header : List String) (timeIndex : Int) (excl : List String) :
    ((transformRecord pj cfg record header timeIndex excl).2).isSome = true ↔
      (cfg.DiscardInvalid = true ∧ 0 ≤ timeIndex ∧
        timeIndex < (record.length : Int) ∧
        parseTimestamp (record.getD timeIndex.toNat "") = none) := by
  unfold transformRecord
  cases hts : timeStep cfg record timeIndex with
  | none =>
    obtain ⟨hd, h0, h1, hp⟩ := (timeStep_none_iff cfg record timeIndex).mp hts
    constructor
    · intro _
      exact ⟨hd, h0, h1, hp⟩
    · intro _
      rfl
  | some ev =>
    have hno : (transformTail pj cfg record header timeIndex excl ev).2 =
      none := rfl
    constructor
    · intro h
      rw [hno] at h
      simp at h
    · intro h
      have h2 := (timeStep_none_iff cfg record timeIndex).mpr h
      rw [hts] at h2
      simp at h2

/-!  ### Raw-JSON passthrough -/

theorem postSwitch_of_raw (cfg : TransformerConfig) (timeIndex : Int)
    (excl : List String) (fieldName : String) (i : Nat) (value : String)
    (acc1 : Event) :
    postSwitch cfg true timeIndex excl fieldName i value acc1 = acc1 := by
  unfold postSwitch
  rw [if_pos rfl]

theorem rawInsStep_of_ne (fieldName value : String) (acc : Event)
    (h : ¬ fieldName = "_raw") : rawInsStep fieldName value acc = acc := by
  unfold rawInsStep
  rw [if_neg (fun hc => h hc.1)]

theorem processField_event_of_raw (cfg : TransformerConfig) (timeIndex : Int)
    (excl : List String) (header : List String) (acc : Event) (i : Nat)
    (v : String) :
    (processField cfg true timeIndex excl header acc i v).Event = acc.Event := by
  unfold processField
  split_ifs with hg ht hr hh hs hst hix hp
  · rfl
  · rfl
  · rfl
  · rfl
  · rfl
  · rfl
  · rfl
  · rfl
  · rw [postSwitch_of_raw, rawInsStep_of_ne]
    intro hc
    exact hr ⟨hc, rfl⟩

theorem processFields_event_of_raw (cfg : TransformerConfig) (timeIndex : Int)
    (excl : List String) (header record : List String) (ev : Event) :
    (processFields cfg true timeIndex excl header record ev).Event = ev.Event := by
  unfold processFields
  generalize record.enum = l
  induction l generalizing ev with
  | nil => rfl
  | cons p rest ih =>
    simp only [List.foldl_cons]
    rw [ih _]
    exact processField_event_of_raw cfg timeIndex excl header ev p.1 p.2

theorem addConstants_event_nil (cfg : TransformerConfig) (ev : Event)
    (h : cfg.ConstantFields = []) : addConstants cfg ev = ev := by
  unfold addConstants
  rw [h]
  rfl

theorem transformTail_event_of_raw
    (pj : String → Option (List (String × Value))) (cfg : TransformerConfig)
    (record header : List String) (timeIndex : Int) (excl : List String)
    (ev : Event) (obj : List (String × Value))
    (hraw : rawParse pj header record = some obj)
    (hconst : cfg.ConstantFields = []) :
    (transformTail pj cfg record header timeIndex excl ev).1.Event = obj := by
  unfold transformTail
  rw [hraw]
  simp only [Option.getD_some, Option.isSome_some]
  rw [addConstants_event_nil cfg _ hconst]
  exact processFields_event_of_raw cfg timeIndex excl header record _

/-- Claim C4 as amended: when the `_raw` column's value parses as a JSON
object, that object becomes the event's field mapping and no column of the
row is merged in; but configured constant fields are still merged in last,
so the mapping is exactly the parsed object only when no constant fields
are configured. -/
theorem rawJSON_passthrough
    (pj : String → Option (List (String × Value))) (cfg : TransformerConfig)
    (record header : List String) (timeIndex : Int) (excl : List String)
    (obj : List (String × Value))
    (hraw : rawParse pj header record = some obj)
    (hconst : cfg.ConstantFields = [])
    (hok : (transformRecord pj cfg record header timeIndex excl).2 = none) :
    (transformRecord pj cfg record header timeIndex excl).1.Event = obj := by
  unfold transformRecord at hok ⊢
  cases hts : timeStep cfg record timeIndex with
  | none =>
    rw [hts] at hok
    simp at hok
  | some ev =>
    exact transformTail_event_of_raw pj cfg record header timeIndex excl ev
      obj hraw hconst

/-- Witness for the amended C4: with no constant fields, a `_raw` value
that the JSON parser reads as the object with single field k = 1 gives a
field mapping of exactly that object. -/
theorem rawJSON_passthrough_witness :
    rawParse (fun s => if s = "rawobj"
        then some [("k", Value.vnum 1)] else none)
      ["_raw", "sib"] ["rawobj", "s"] = some [("k", Value.vnum 1)] ∧
    (transformRecord (fun s => if s = "rawobj"
        then some [("k", Value.vnum 1)] else none)
      ({} : TransformerConfig) ["rawobj", "s"] ["_raw", "sib"] (-1)
      []).1.Event = [("k", Value.vnum 1)] :=
  ⟨rfl, rawJSON_passthrough _ ({} : TransformerConfig) _ _ (-1) []
    [("k", Value.vnum 1)] rfl rfl rfl⟩

/-- Counterexample to claim C4 as stated: with a configured constant field
`("c","v")`, a row whose `_raw` value parses as the JSON object with single
field k = 1 yields a field mapping that is NOT exactly that parsed object
`[("k",1)]` — the constant field is merged in even in raw-JSON mode. -/
theorem rawJSON_constant_counterexample :
    (transformRecord (fun s => if s = "rawobj"
        then some [("k", Value.vnum 1)] else none)
      ({ ConstantFields := [("c", "v")] } : TransformerConfig)
      ["rawobj", "s"] ["_raw", "sib"] (-1) []).1.Event =
      [("k", Value.vnum 1), ("c", Value.vstr "v")] ∧
    ¬ ((transformRecord (fun s => if s = "rawobj"
        then some [("k", Value.vnum 1)] else none)
      ({ ConstantFields := [("c", "v")] } : TransformerConfig)
      ["rawobj", "s"] ["_raw", "sib"] (-1) []).1.Event =
      [("k", Value.vnum 1)]) := by
  constructor
  · rfl
  · intro h
    have h2 := congrArg (fun m => lookupVal m "c") h
    exact Option.noConfusion h2

/-!  ### `TransformCSV` fail-fast behavior -/

/-- Claim C6 as amended: when the configured (non-empty) time field is
absent from the header, no default timestamp is configured AND
discard-invalid is not configured, `TransformCSV` fails for the whole input
before transforming any row. -/
theorem transformCSV_missing_timefield_errs
    (pj : String → Option (List (String × Value)))
    (tsrw : Int → String → String) (cfg : TransformerConfig)
    (header : List String) (rows : List (List String))
    (h1 : ¬ cfg.TimeField = "") (h2 : lastIdxOf? header cfg.TimeField = none)
    (h3 : cfg.DefaultTimestamp = none) (h4 : cfg.DiscardInvalid = false) :
    isErr (transformCSV pj tsrw cfg header rows) = true := by
  unfold transformCSV resolveTimeIndex
  rw [if_neg h1, h2]
  simp [h3, h4, isErr]

/-- Witness for the amended C6 at a concrete configuration and input. -/
theorem transformCSV_missing_timefield_errs_witness :
    isErr (transformCSV (fun _ => none) (fun _ s => s)
      ({ TimeField := "time" } : TransformerConfig) ["a"] [["x"]]) = true :=
  transformCSV_missing_timefield_errs (fun _ => none) (fun _ s => s)
    ({ TimeField := "time" } : TransformerConfig) ["a"] [["x"]]
    (by simp) rfl rfl rfl

/-- Counterexample to claim C6 as stated: with `DiscardInvalid = true` (and
still no default timestamp), a header lacking the configured time field does
NOT make `TransformCSV` fail — the missing-field error additionally requires
discard-invalid to be unset, and Go's map lookup leaves `timeIndex = 0`, so
the run proceeds (here the single unparsable row is discarded and an empty
event list is returned without error). -/
theorem transformCSV_missing_timefield_counterexample :
    transformCSV (fun _ => none) (fun _ s => s)
      ({ TimeField := "time", DiscardInvalid := true } : TransformerConfig)
      ["a"] [["x"]] = .ok [] := rfl

/-!  ### The time-offset step -/

/-- Claim C8.  The time-offset step of `TransformCSV` with a zero-duration
offset is the identity on every event (the code only calls
`applyTimeOffsets` when the configured offset is non-zero), for every
behavior `tsrw` of the external timestamp rewriter. -/
theorem timeOffset_zero_identity (tsrw : Int → String → String) (ev : Event) :
    applyOffsetStep tsrw 0 ev = ev := by
  simp [applyOffsetStep]

/-!  ### The retry policy of `processFile` -/

/-- A retry loop whose sink fails attempts `start..start+k-1` and succeeds
at attempt `start+k` (with `k` attempts of budget left beyond the first)
makes exactly `k+1` sink calls and ends in success. -/
theorem retryGo_success (sink : Nat → Bool) :
    ∀ (k rem start : Nat) (pending : Bool),
      (∀ i, i < k → sink (start + i) = false) → sink (start + k) = true →
      k < rem → retryGo sink start rem pending = (k + 1, true) := by
  intro k
  induction k with
  | zero =>
    intro rem start pending _ hsucc hlt
    cases rem with
    | zero => omega
    | succ r =>
      have hs : sink start = true := by simpa using hsucc
      simp [retryGo, hs]
  | succ k ih =>
    intro rem start pending hfail hsucc hlt
    cases rem with
    | zero => omega
    | succ r =>
      have h0 : sink start = false := by
        have := hfail 0 (Nat.succ_pos k)
        simpa using this
      have hrec := ih r (start + 1) false
        (fun i hi => by
          have := hfail (i + 1) (Nat.succ_lt_succ hi)
          rwa [show start + (i + 1) = start + 1 + i by omega] at this)
        (by rwa [show start + 1 + k = start + (k + 1) by omega])
        (Nat.lt_of_succ_lt_succ hlt)
      simp [retryGo, h0, hrec]

/-- A retry loop whose sink always fails makes exactly its budget of sink
calls and ends in failure (for a positive budget). -/
theorem retryGo_fail (sink : Nat → Bool) (hfail : ∀ i, sink i = false) :
    ∀ (rem start : Nat) (pending : Bool),
      retryGo sink start (rem + 1) pending = (rem + 1, false) := by
  intro rem
  induction rem with
  | zero =>
    intro start pending
    simp [retryGo, hfail start]
  | succ r ih =>
    intro start pending
    have hinner := ih (start + 1) false
    simp only [retryGo, hfail start, hfail (start + 1), Bool.false_eq_true,
      if_false] at hinner ⊢
    simp only [Prod.mk.injEq] at hinner ⊢
    obtain ⟨hin1, hin2⟩ := hinner
    exact ⟨by omega, hin2⟩

/-- Claim C7.  For every batch during file publishing, with the batch's
delivery attempts described by `sinkB` and the configured retry count:
(a) if the sink fails the first `k` attempts and succeeds on attempt `k+1`
(`k < retryCount`), the loop makes exactly `k+1` attempts containing exactly
one successful delivery, no error is reported, and the batch's events are
added to the published count; (b) if the sink always fails, exactly
`retryCount` attempts are made, the batch's events are added to the failed
count and not the published count, and the file's batch loop stops there
with the error, processing no further batch. -/
theorem processFile_retry_policy (sinkB : Nat → Bool) (retryCount k : Nat)
    (published failed bLen : Nat) (rest : List Nat) :
    ((∀ i, i < k → sinkB i = false) → sinkB k = true → k < retryCount →
      retryGo sinkB 0 retryCount true = (k + 1, true) ∧
      (List.range (k + 1)).countP (fun i => sinkB i) = 1 ∧
      batchStep sinkB retryCount published failed bLen =
        (published + bLen, failed, true)) ∧
    ((∀ i, sinkB i = false) → 0 < retryCount →
      retryGo sinkB 0 retryCount true = (retryCount, false) ∧
      batchStep sinkB retryCount published failed bLen =
        (published, failed + bLen, false) ∧
      processBatchList (fun _ => sinkB) retryCount 0 (bLen :: rest) =
        (0, bLen, false)) := by
  constructor
  · intro hfail hsucc hlt
    have hretry := retryGo_success sinkB k retryCount 0 true
      (fun i hi => by simpa using hfail i hi) (by simpa using hsucc) hlt
    refine ⟨hretry, ?_, ?_⟩
    · rw [List.range_succ, List.countP_append]
      have hz : (List.range k).countP (fun i => sinkB i) = 0 := by
        rw [List.countP_eq_zero]
        intro a ha
        simp [hfail a (List.mem_range.mp ha)]
      rw [hz]
      simp [hsucc]
    · unfold batchStep
      rw [hretry]
      simp
  · intro hfail hpos
    obtain ⟨r, hr⟩ : ∃ r, retryCount = r + 1 :=
      ⟨retryCount - 1, by omega⟩
    subst hr
    have hretry := retryGo_fail sinkB hfail r 0 true
    refine ⟨hretry, ?_, ?_⟩
    · unfold batchStep
      rw [hretry]
      simp
    · unfold processBatchList
      simp [hretry]

/-- Witness for C7 at concrete sinks: one that fails attempt 0 and succeeds
on attempt 1 with retry count 3, and one that always fails. -/
theorem processFile_retry_policy_witness :
    (retryGo (fun i => decide (i = 1)) 0 3 true = (2, true) ∧
      (List.range 2).countP (fun i => decide (i = 1)) = 1 ∧
      batchStep (fun i => decide (i = 1)) 3 10 2 5 = (15, 2, true)) ∧
    (retryGo (fun _ => false) 0 3 true = (3, false) ∧
      batchStep (fun _ => false) 3 10 2 5 = (10, 7, false) ∧
      processBatchList (fun _ => fun _ => false) 3 0 [5, 7] = (0, 5, false)) :=
  ⟨(processFile_retry_policy (fun i => decide (i = 1)) 3 1 10 2 5 [7]).1
      (by
        intro i hi
        have : i = 0 := by omega
        subst this
        decide)
      (by decide) (by decide),
   (processFile_retry_policy (fun _ => false) 3 1 10 2 5 [7]).2
      (fun _ => rfl) (by decide)⟩

end Publish
